import Mathlib

/-!
Shallow embedding of the Prusa2Anker post-processor (src/main.rs and
src/lib.rs).

Modelling conventions, used uniformly below:
* a Rust String or str slice is a list of characters (`Str`); byte-level
  operations of the source (slice indexing, `len`) are modelled through the
  UTF-8 size of each character;
* a Rust u64 is a `Nat`, reduced modulo `2 ^ 64` wherever the source can
  overflow (release-profile wrapping semantics); `str::parse` into u64 fails
  for values of `2 ^ 64` and above exactly as in Rust;
* a recoverable `Result` of the source is an `Except`;
* an uncontrolled process abort of the source (a `panic` call, a failing
  `unwrap`, an out-of-bounds or non-boundary byte slice) is the value `none`
  of an `Option` wrapped around the result type.
-/

set_option maxRecDepth 100000

deriving instance DecidableEq for Except

namespace PrusaAnker

/-- A Rust string, modelled as its characters. -/
abbrev Str := List Char

/-- One more than the largest u64 value. -/
def U64 : Nat := 2 ^ 64

/-- Model of Rust `str::split` on a single separator character.  The result
is always a nonempty list of separator-free pieces. -/
def splitOn (sep : Char) : Str → List Str
  | [] => [[]]
  | c :: rest =>
    match splitOn sep rest with
    | [] => [[]]
    | piece :: pieces =>
      if c = sep then [] :: piece :: pieces else (c :: piece) :: pieces

/-- The whitespace test used by the model of Rust `str::trim` (the ASCII part
of the Rust whitespace predicate; every string handled by this repository
only contains plain spaces as whitespace). -/
def isWS (c : Char) : Bool :=
  c.toNat = 32 || c.toNat = 9 || c.toNat = 10 || c.toNat = 13 || c.toNat = 11 || c.toNat = 12

/-- Model of Rust `str::trim`: removes leading and trailing whitespace. -/
def trim (s : Str) : Str :=
  ((s.dropWhile isWS).reverse.dropWhile isWS).reverse

/-- Decimal digit test. -/
def isDigit (c : Char) : Bool := 48 ≤ c.toNat && c.toNat ≤ 57

/-- Numeric value of a digit string, most significant digit first. -/
def digitsVal (s : Str) : Nat := s.foldl (fun a c => 10 * a + (c.toNat - 48)) 0

/-- Accumulator loop of the u64 parser: consumes decimal digits, fails on
anything else. -/
def parseDigitsGo : Nat → Str → Option Nat
  | acc, [] => some acc
  | acc, c :: cs =>
    if isDigit c then parseDigitsGo (10 * acc + (c.toNat - 48)) cs else none

/-- Model of Rust `str::parse` into u64: an optional leading plus sign, then
one or more decimal digits, with a value below `2 ^ 64`; anything else is a
parse error. -/
def parseU64 (s : Str) : Option Nat :=
  let t : Str := match s with
    | c :: rest => if c = '+' then rest else c :: rest
    | [] => []
  if t = [] then none
  else
    match parseDigitsGo 0 t with
    | some n => if n < U64 then some n else none
    | none => none

/-- Prusaslicer attribute for the estimated printing time (main.rs line 13). -/
def PRUSA_ESTIMATED_PRINTING_TIME : Str := "estimated printing time".toList

/-- Prusaslicer attribute for the estimated material usage (main.rs line 15). -/
def PRUSA_FILAMENT_USED_MM : Str := "filament used [mm]".toList

/-- Ankermake attribute for the estimated printing time (main.rs line 18). -/
def ANKERMAKE_PRINTING_TIME : Str := "TIME".toList

/-- Ankermake attribute for the estimated material usage (main.rs line 20). -/
def ANKERMAKE_FILAMENT_USED_M : Str := "Filament used".toList

/-- The gcode flavour attribute (main.rs line 22). -/
def ANKERMAKE_FLAVOUR : Str := "FLAVOR".toList

/-- Potential errors encountered while parsing the gcode (main.rs lines
25-31). -/
inductive ParsingError
  | MissingValue (text : Str)
  | StringParsingError (kind : String) (value : Str)
deriving DecidableEq

/-- The fields reformatted for the Ankermake M5 (main.rs lines 33-41). -/
inductive InterestingFields
  | Time (seconds : Nat)
  | FilamentUsed (lengthUmX10 : Nat)
  | Flavour (flavour : Str)
deriving DecidableEq

/-- The character of a decimal digit value. -/
def digitChar (n : Nat) : Char := Char.ofNat (48 + n)

/-- Fuelled digit expansion used by `natRepr`. -/
def natDigitsAux : Nat → Nat → Str
  | 0, _ => []
  | fuel + 1, n =>
    if n < 10 then [digitChar n] else natDigitsAux fuel (n / 10) ++ [digitChar (n % 10)]

/-- Decimal rendering of a natural number (models the Rust u64 Display). -/
def natRepr (n : Nat) : Str := natDigitsAux (n + 1) n

/-- Binary length of a natural number: zero for zero, one plus the index of
the highest set bit otherwise.  Fuelled so that the kernel can evaluate it;
the fuel is never the limiting factor. -/
def bitLenAux : Nat → Nat → Nat
  | 0, _ => 0
  | fuel + 1, n => if n = 0 then 0 else bitLenAux fuel (n / 2) + 1

/-- Binary length of a natural number. -/
def bitLen (n : Nat) : Nat := bitLenAux (n + 1) n

/-- Rounds `m / 2 ^ sh` to the nearest integer, ties to even. -/
def roundShift (m sh : Nat) : Nat :=
  if sh = 0 then m
  else
    let q := m / 2 ^ sh
    let r := m % 2 ^ sh
    let half := 2 ^ (sh - 1)
    if half < r then q + 1
    else if r < half then q
    else if q % 2 = 0 then q else q + 1

/-- Model of the Rust cast of a positive integer to f64: round to 53
significant bits, ties to even.  The result `(sig, exp)` denotes the double
`sig * 2 ^ exp` with `2 ^ 52 ≤ sig < 2 ^ 53`. -/
def natToF64 (n : Nat) : Nat × Int :=
  let b := bitLen n
  if b ≤ 53 then (n * 2 ^ (53 - b), (b : Int) - 53)
  else
    let q := roundShift n (b - 53)
    if q = 2 ^ 53 then (2 ^ 52, (b : Int) - 52) else (q, (b : Int) - 53)

/-- IEEE division of a positive double `sig * 2 ^ exp` by 100000.0, rounded
to nearest, ties to even.  The result exponent is fixed by where the
quotient falls relative to the powers of two, and the result significand is
the correctly rounded integer quotient. -/
def f64Div100000 (s : Nat) (e : Int) : Nat × Int :=
  let f : Int := if s < 100000 * 2 ^ 36 then e - 17 else e - 16
  let sh : Nat := (e - f).toNat
  let N := s * 2 ^ sh
  let q := N / 100000
  let r := N % 100000
  let q2 :=
    if 100000 < 2 * r then q + 1
    else if 2 * r < 100000 then q
    else if q % 2 = 0 then q else q + 1
  if q2 = 2 ^ 53 then (2 ^ 52, f + 1) else (q2, f)

/-- Initial state of the shortest-decimal digit generation for the double
`s * 2 ^ f`: the value, its denominator and the half-gaps to the
neighbouring doubles, all scaled to integers.  The lower half-gap halves
when the significand sits at a power of two. -/
def dragonStart (s : Nat) (f : Int) : Nat × Nat × Nat × Nat :=
  if 2 ≤ f then
    let num := s * 2 ^ f.toNat
    let mp := 2 ^ (f - 1).toNat
    let mm := if s = 2 ^ 52 then 2 ^ (f - 2).toNat else mp
    (num, 1, mp, mm)
  else
    let den := 2 ^ ((2 : Int) - f).toNat
    let mm := if s = 2 ^ 52 then 1 else 2
    (4 * s, den, 2, mm)

/-- Scale fixup of the digit generation: bring the upper endpoint of the
rounding interval into the interval from one tenth to one, tracking the
decimal exponent.  Interval boundaries are inclusive for an even
significand, matching round-to-nearest-even parsing. -/
def dragonFixK : Nat → Nat → Nat → Nat → Nat → Bool → Int → Nat × Nat × Nat × Nat × Int
  | 0, num, den, mp, mm, _, k => (num, den, mp, mm, k)
  | fuel + 1, num, den, mp, mm, inc, k =>
    let high := if inc then decide (den ≤ num + mp) else decide (den < num + mp)
    if high then dragonFixK fuel num (den * 10) mp mm inc (k + 1)
    else
      let low := if inc then decide ((num + mp) * 10 < den) else decide ((num + mp) * 10 ≤ den)
      if low then dragonFixK fuel (num * 10) den (mp * 10) (mm * 10) inc (k - 1)
      else (num, den, mp, mm, k)

/-- Digit generation of the shortest decimal that parses back to the same
double: emit digits while neither rounding the current prefix down nor up
stays within the rounding interval, and stop with the nearer candidate as
soon as one does; an exactly equidistant candidate pair resolves upward,
the convention of the Rust formatter.  The final emitted digit can be ten,
which a later carry fixup resolves. -/
def dragonDigits : Nat → Nat → Nat → Nat → Nat → Bool → List Nat
  | 0, _, _, _, _, _ => []
  | fuel + 1, num, den, mp, mm, inc =>
    let num10 := num * 10
    let mp10 := mp * 10
    let mm10 := mm * 10
    let d := num10 / den
    let r := num10 % den
    let low := if inc then decide (r ≤ mm10) else decide (r < mm10)
    let high := if inc then decide (den ≤ r + mp10) else decide (den < r + mp10)
    if low && high then
      if den ≤ 2 * r then [d + 1] else [d]
    else if low then [d]
    else if high then [d + 1]
    else d :: dragonDigits fuel r den mp10 mm10 inc

/-- Increments a reversed digit list, propagating carries; `none` when the
carry falls off the highest digit. -/
def incDigitsRev : List Nat → Option (List Nat)
  | [] => none
  | d :: rest => if d = 9 then (incDigitsRev rest).map (fun t => 0 :: t) else some ((d + 1) :: rest)

/-- Resolves a trailing digit of ten left by the digit generation: drop it
and propagate the carry into the remaining digits, removing the trailing
zeros this creates; a carry off the top becomes the single digit one with
the decimal exponent raised. -/
def fixDigits (ds : List Nat) (k : Int) : List Nat × Int :=
  match ds.reverse with
  | 10 :: rest =>
    match incDigitsRev rest with
    | some t => ((t.dropWhile (fun d => d = 0)).reverse, k)
    | none => ([1], k + 1)
  | _ => (ds, k)

/-- Renders digits with decimal exponent `k` (value `0.d₁d₂…·10^k`) the way
the Rust Display of f64 does: plain positional notation, no exponent, no
trailing fractional zeros and no fractional part for integral values. -/
def formatDecimal (digits : List Nat) (k : Int) : Str :=
  let ds := digits.map digitChar
  if k ≤ 0 then '0' :: '.' :: (List.replicate (-k).toNat '0' ++ ds)
  else if (digits.length : Int) ≤ k then ds ++ List.replicate (k - digits.length).toNat '0'
  else ds.take k.toNat ++ '.' :: ds.drop k.toNat

/-- Model of the Rust rendering of `(n as f64) / 100000.0` under Display
(main.rs line 48): the integer is cast to a double (rounded to 53
significant bits, ties to even), divided by 100000.0 with IEEE
round-to-nearest-even, and printed as the shortest decimal string that
parses back to that same double, in plain positional notation; zero prints
as the single digit zero.  Interval boundaries in the shortest-digit search
are treated as inclusive for even significands, the convention of
round-to-nearest-even parsing, and an exactly equidistant shortest
candidate rounds up, as in the Rust formatter. -/
def formatDiv100000 (n : Nat) : Str :=
  if n = 0 then ['0']
  else
    let x := natToF64 n
    let y := f64Div100000 x.1 x.2
    let inc := decide (y.1 % 2 = 0)
    let st := dragonStart y.1 y.2
    let fx := dragonFixK 400 st.1 st.2.1 st.2.2.1 st.2.2.2 inc 0
    let ds := dragonDigits 40 fx.1 fx.2.1 fx.2.2.1 fx.2.2.2.1 inc
    let fixed := fixDigits ds fx.2.2.2.2
    formatDecimal fixed.1 fixed.2

/-- The ToString implementation of InterestingFields (main.rs lines 43-52). -/
def InterestingFields.toString : InterestingFields → Str
  | .Time seconds => ';' :: ANKERMAKE_PRINTING_TIME ++ ':' :: natRepr seconds
  | .FilamentUsed lengthUmX10 =>
    ';' :: ANKERMAKE_FILAMENT_USED_M ++ ':' :: ' ' :: formatDiv100000 lengthUmX10 ++ ['m']
  | .Flavour flavour => ';' :: ANKERMAKE_FLAVOUR ++ ':' :: flavour

/-- Maps a fallible function over a list, failing as a whole on the first
failure (the effect of mapping a panicking closure in the source). -/
def optMap {α β : Type} (f : α → Option β) : List α → Option (List β)
  | [] => some []
  | a :: rest =>
    match f a, optMap f rest with
    | some b, some bs => some (b :: bs)
    | _, _ => none

/-- Model of Rust `str::strip_suffix` for a single character. -/
def stripSuffixChar (c : Char) (s : Str) : Option Str :=
  match s.reverse with
  | [] => none
  | d :: rest => if d = c then some rest.reverse else none

/-- One component of the duration value (main.rs lines 64-74): a component
ending in the hour, minute or second suffix contributes its numeric value
times 3600, 60 or 1; `none` models the aborts of the source (the explicit
panic on an unrecognised suffix and the failing unwrap on a bad numeric
portion); the u64 products wrap modulo `2 ^ 64`. -/
def parseComp (value : Str) : Option Nat :=
  match stripSuffixChar 'h' value with
  | some core => (parseU64 core).map (fun n => n * 60 * 60 % U64)
  | none =>
    match stripSuffixChar 'm' value with
    | some core => (parseU64 core).map (fun n => n * 60 % U64)
    | none =>
      match stripSuffixChar 's' value with
      | some core => parseU64 core
      | none => none

/-- Model of `extract_time_data_as_seconds` (main.rs lines 55-78).  The outer
`Option` is `none` when the source aborts inside the component loop; the
`Except` carries the one recoverable error of this function, the missing
equals sign. -/
def extract_time_data_as_seconds (attrText : Str) : Option (Except ParsingError Nat) :=
  match splitOn '=' attrText with
  | _ :: stringValue :: _ =>
    match optMap parseComp (splitOn ' ' (trim stringValue)) with
    | some terms => some (Except.ok (terms.foldl (fun a b => (a + b) % U64) 0))
    | none => none
  | _ => some (Except.error (ParsingError.MissingValue attrText))

/-- Model of `extract_filament_used_as_um_x10` (main.rs lines 81-99): splits
off the text after the first equals sign, trims it, removes every full stop
by splitting and re-concatenating, and parses the remainder as u64. -/
def extract_filament_used_as_um_x10 (attrText : Str) : Except ParsingError Nat :=
  match splitOn '=' attrText with
  | _ :: stringValue :: _ =>
    let integerValueStr := (splitOn '.' (trim stringValue)).flatten
    match parseU64 integerValueStr with
    | some n => Except.ok n
    | none => Except.error (ParsingError.StringParsingError "u64" integerValueStr)
  | _ => Except.error (ParsingError.MissingValue attrText)

/-- UTF-8 encoded size of one character, in bytes. -/
def charUtf8Size (c : Char) : Nat :=
  if c.toNat < 128 then 1 else if c.toNat < 2048 then 2 else if c.toNat < 65536 then 3 else 4

/-- UTF-8 encoded size of a string, in bytes: the Rust `str::len`. -/
def utf8Len (s : Str) : Nat := (s.map charUtf8Size).sum

/-- Model of the Rust byte slice `line[k..]`: drops the first `k` bytes, and
is `none` (an abort) when `k` does not fall on a character boundary. -/
def byteDrop : Nat → Str → Option Str
  | 0, s => some s
  | _ + 1, [] => none
  | k + 1, c :: rest =>
    if charUtf8Size c ≤ k + 1 then byteDrop (k + 1 - charUtf8Size c) rest else none

/-- Boolean prefix test on character lists, first argument the candidate
head. -/
def startsWith : Str → Str → Bool
  | [], _ => true
  | _ :: _, [] => false
  | p :: ps, c :: cs => (p == c) && startsWith ps cs

/-- The body of the per-line loop of `process_lines` (main.rs lines
109-120): `none` is an abort (either the byte slice at a non-boundary or a
failing unwrap around an extractor), `some none` a line contributing no
field, `some (some f)` a matched line with its extracted field. -/
def scanLine (line : Str) : Option (Option InterestingFields) :=
  if 3 < utf8Len line then
    match byteDrop 2 line with
    | none => none
    | some trimmedLine =>
      if startsWith PRUSA_ESTIMATED_PRINTING_TIME trimmedLine then
        match extract_time_data_as_seconds trimmedLine with
        | some (Except.ok seconds) => some (some (InterestingFields.Time seconds))
        | _ => none
      else if startsWith PRUSA_FILAMENT_USED_MM trimmedLine then
        match extract_filament_used_as_um_x10 trimmedLine with
        | Except.ok n => some (some (InterestingFields.FilamentUsed n))
        | Except.error _ => none
      else some none
  else some none

/-- Joins pieces with a single separator character between consecutive
pieces and nothing appended at either end: the Rust slice `join`. -/
def joinSep (sep : Char) : List Str → Str
  | [] => []
  | [x] => x
  | x :: y :: rest => x ++ sep :: joinSep sep (y :: rest)

/-- Model of `process_lines` (main.rs lines 103-129).  The input models the
line iterator of a buffered reader: `none` entries are undecodable lines,
which `flatten` silently drops.  The overall `none` models an abort in the
scanning loop. -/
def process_lines (input : List (Option Str)) : Option Str :=
  match optMap scanLine (input.filterMap id) with
  | none => none
  | some opts =>
    some (joinSep '\n'
      ((InterestingFields.Flavour "Marlin".toList :: opts.filterMap id).map
        InterestingFields.toString ++ input.filterMap id))

/-- The header lines `process_lines` prepends for a given decodable line
sequence: the flavour constant first, then one rendered line per matched
field, in discovery order. -/
def headerOf (ls : List Str) : List Str :=
  (InterestingFields.Flavour "Marlin".toList ::
    ls.filterMap (fun l => (scanLine l).join)).map InterestingFields.toString

/-- Strips one trailing carriage return, as the line iterator does to a
piece that ended with a newline. -/
def stripCR (l : Str) : Str :=
  match l.reverse with
  | '\r' :: rest => rest.reverse
  | _ => l

/-- Model of the std `BufRead::lines` iterator on fully decodable input:
pieces between newline bytes, with the empty piece after a trailing newline
dropped, a carriage return stripped before each newline, and a final
newline-less fragment kept verbatim. -/
def readLines (s : Str) : List Str :=
  let ps := splitOn '\n' s
  ps.dropLast.map stripCR ++
    (match ps.getLast? with
     | some [] => []
     | some l => [l]
     | none => [])

/-- A property of the gcode translated for the Ankermake M5 (lib.rs lines
16-35).  The translation capability is an optional fallible function from
the raw value string. -/
inductive MetadataProperty
  | Constant (name : String) (value : String)
  | Field ( prusa : String) (anker : String) (translate_fn : Option (String → Except String String))

/-- The fixed metadata property catalog (lib.rs lines 39-69). -/
def METADATA_PROPERTIES : List MetadataProperty := [
  MetadataProperty.Constant "FLAVOR" "Marlin",
  MetadataProperty.Constant "Print Mode" "fast",
  MetadataProperty.Constant "CompileMode" "Executable File",
  MetadataProperty.Field "filament_settings_id" "Filament Name" none,
  MetadataProperty.Field "nozzle_diameter" "Machine Nozzle Size" none,
  MetadataProperty.Field "max_print_speed" "MAXSPEED" none]

/-- The output key of a catalog entry: a constant emits its name, a field
its anker-side key. -/
def ankerKey : MetadataProperty → String
  | .Constant name _ => name
  | .Field _ anker _ => anker

/-- The duplicate-key validation of the catalog (lib.rs lines 73-99): every
entry must be the only one carrying its output key. -/
def assert_no_duplicate_metadata_properties (props : List MetadataProperty) : Bool :=
  props.all (fun p => props.countP (fun other => ankerKey p == ankerKey other) == 1)

/-- Renders a catalog constant the way the formatter renders emitted lines:
a semicolon, the key, a colon, the value. -/
def renderConstant (name value : String) : Str :=
  ';' :: name.toList ++ ':' :: value.toList

/-- The rendered line of a catalog entry when it is a constant. -/
def constantRender : MetadataProperty → Option Str
  | .Constant name value => some (renderConstant name value)
  | .Field _ _ _ => none

/-- Boolean prefix test on line lists. -/
def linesStart : List Str → List Str → Bool
  | [], _ => true
  | _ :: _, [] => false
  | p :: ps, x :: xs => (p == x) && linesStart ps xs

/-- The weight of a duration component suffix: hours, minutes or seconds. -/
def suffixWeight : Char → Nat
  | 'h' => 3600
  | 'm' => 60
  | _ => 1

/-- The text of one duration component, given as its digit string and its
suffix character. -/
def renderComp (p : Str × Char) : Str := p.1 ++ [p.2]

/-- The value in seconds contributed by one duration component. -/
def compVal (p : Str × Char) : Nat := digitsVal p.1 * suffixWeight p.2

/-- Whether byte index 2 of the UTF-8 encoding of a string falls on a
character boundary with at least two bytes present: either the first
character occupies two bytes, or the first two characters occupy one byte
each. -/
def boundary2 : Str → Bool
  | [] => false
  | c :: rest =>
    if charUtf8Size c = 2 then true
    else if charUtf8Size c = 1 then
      match rest with
      | c2 :: _ => charUtf8Size c2 == 1
      | [] => false
    else false

/-- The constant header line the pipeline always emits first. -/
def flavourLine : Str := ";FLAVOR:Marlin".toList

/-- A decodable line that begins with a three-byte character: byte index 2
falls inside that character. -/
def panicLine : Str := '€' :: "abc".toList

/-- A second such line, used for the byte-slice safety analysis. -/
def panicLineB : Str := '€' :: "ab".toList

/-- The four-line end-to-end example input of the specification. -/
def exampleInput : Str :=
  "; generated by Slicer\n; estimated printing time = 1h 30m 0s\n; filament used [mm] = 2500.00\nG1 X10 Y10".toList

/-- The example input as its line sequence. -/
def exampleInputLines : List Str :=
  ["; generated by Slicer".toList,
   "; estimated printing time = 1h 30m 0s".toList,
   "; filament used [mm] = 2500.00".toList,
   "G1 X10 Y10".toList]

/-- The expected end-to-end output for the example input. -/
def exampleOutput : Str :=
  ";FLAVOR:Marlin\n;TIME:5400\n;Filament used: 2.5m\n; generated by Slicer\n; estimated printing time = 1h 30m 0s\n; filament used [mm] = 2500.00\nG1 X10 Y10".toList

/-- The output of running the pipeline a second time, on its own output. -/
def exampleOutputTwice : Str :=
  ";FLAVOR:Marlin\n;TIME:5400\n;Filament used: 2.5m\n".toList ++ exampleOutput

/-! ### Lemmas about the string primitives -/

theorem splitOn_ne_nil (sep : Char) (s : Str) : splitOn sep s ≠ [] := by
  induction s with
  | nil => simp [splitOn]
  | cons c rest ih =>
    rw [splitOn]
    cases h : splitOn sep rest with
    | nil => simp
    | cons piece pieces => by_cases hc : c = sep <;> simp [hc]

theorem splitOn_of_not_mem {sep : Char} {s : Str} (h : sep ∉ s) : splitOn sep s = [s] := by
  induction s with
  | nil => rfl
  | cons c rest ih =>
    have hc : ¬(c = sep) := fun hh => h (hh ▸ List.mem_cons_self c rest)
    have hr : sep ∉ rest := fun hh => h (List.mem_cons_of_mem _ hh)
    simp [splitOn, ih hr, hc]

theorem splitOn_append {sep : Char} {a : Str} (b : Str) (h : sep ∉ a) :
    splitOn sep (a ++ sep :: b) = a :: splitOn sep b := by
  induction a with
  | nil =>
    simp only [List.nil_append, splitOn]
    cases hb : splitOn sep b with
    | nil => exact absurd hb (splitOn_ne_nil sep b)
    | cons piece pieces => simp
  | cons c rest ih =>
    have hc : ¬(c = sep) := fun hh => h (hh ▸ List.mem_cons_self c rest)
    have hr : sep ∉ rest := fun hh => h (List.mem_cons_of_mem _ hh)
    rw [List.cons_append, splitOn, ih hr]
    simp [hc]

theorem joinSep_mem {sep : Char} : ∀ {ps : List Str} {c : Char},
    c ∈ joinSep sep ps → c = sep ∨ ∃ p ∈ ps, c ∈ p
  | [], c, h => by simp [joinSep] at h
  | [x], c, h => by
    right
    exact ⟨x, by simp, h⟩
  | x :: y :: rest, c, h => by
    rw [joinSep] at h
    rcases List.mem_append.mp h with h1 | h1
    · exact Or.inr ⟨x, by simp, h1⟩
    · rcases List.mem_cons.mp h1 with h2 | h2
      · exact Or.inl h2
      · rcases joinSep_mem h2 with h3 | ⟨p, hp, hcp⟩
        · exact Or.inl h3
        · exact Or.inr ⟨p, List.mem_cons_of_mem _ hp, hcp⟩

theorem splitOn_joinSep {sep : Char} : ∀ {ps : List Str}, ps ≠ [] →
    (∀ p ∈ ps, sep ∉ p) → splitOn sep (joinSep sep ps) = ps
  | [], h, _ => absurd rfl h
  | [x], _, h2 => by
    rw [joinSep, splitOn_of_not_mem (h2 x (by simp))]
  | x :: y :: rest, _, h2 => by
    rw [joinSep, splitOn_append _ (h2 x (by simp)),
      splitOn_joinSep (by simp) (fun p hp => h2 p (List.mem_cons_of_mem _ hp))]

theorem dropWhile_append_of_all {p : Char → Bool} {a : Str} (b : Str)
    (h : ∀ c ∈ a, p c = true) : (a ++ b).dropWhile p = b.dropWhile p := by
  induction a with
  | nil => rfl
  | cons c rest ih =>
    rw [List.cons_append, List.dropWhile_cons, if_pos (h c (by simp))]
    exact ih fun c hc => h c (List.mem_cons_of_mem _ hc)

theorem dropWhile_cons_of_neg {p : Char → Bool} {c : Char} {l : Str} (h : p c = false) :
    (c :: l).dropWhile p = c :: l := by
  rw [List.dropWhile_cons, if_neg (by simp [h])]

theorem trim_ws_append {ws s : Str} (hws : ∀ c ∈ ws, isWS c = true)
    (h1 : ∃ c t, s = c :: t ∧ isWS c = false)
    (h2 : ∃ c t, s.reverse = c :: t ∧ isWS c = false) :
    trim (ws ++ s) = s := by
  obtain ⟨c0, t0, hs, hc0⟩ := h1
  obtain ⟨cE, tE, hrev, hcE⟩ := h2
  unfold trim
  rw [dropWhile_append_of_all _ hws, hs, dropWhile_cons_of_neg hc0, ← hs, hrev,
    dropWhile_cons_of_neg hcE, ← hrev, List.reverse_reverse]

theorem parseDigitsGo_all_digits {s : Str} (h : ∀ c ∈ s, isDigit c = true) : ∀ acc,
    parseDigitsGo acc s = some (s.foldl (fun a c => 10 * a + (c.toNat - 48)) acc) := by
  induction s with
  | nil => intro acc; rfl
  | cons c cs ih =>
    intro acc
    rw [parseDigitsGo, if_pos (h c (by simp)), List.foldl_cons]
    exact ih (fun d hd => h d (by simp [hd])) _

theorem isDigit_toNat {c : Char} (h : isDigit c = true) : 48 ≤ c.toNat ∧ c.toNat ≤ 57 := by
  simpa [isDigit, Bool.and_eq_true, decide_eq_true_eq] using h

theorem ne_of_toNat_ne {c d : Char} (h : c.toNat ≠ d.toNat) : ¬(c = d) :=
  fun hh => h (by rw [hh])

theorem isWS_of_digit {c : Char} (h : isDigit c = true) : isWS c = false := by
  obtain ⟨h1, h2⟩ := isDigit_toNat h
  simp only [isWS, Bool.or_eq_false_iff, decide_eq_false_iff_not]
  omega

theorem parseU64_digits {s : Str} (h1 : s ≠ []) (h2 : ∀ c ∈ s, isDigit c = true)
    (h3 : digitsVal s < U64) : parseU64 s = some (digitsVal s) := by
  cases s with
  | nil => exact absurd rfl h1
  | cons c cs =>
    have hc : isDigit c = true := h2 c (by simp)
    have hcp : ¬(c = '+') := by
      apply ne_of_toNat_ne
      have hd := isDigit_toNat hc
      have h43 : ('+').toNat = 43 := rfl
      rw [h43]
      omega
    simp only [parseU64]
    rw [if_neg hcp, if_neg (by simp : ¬((c :: cs : Str) = [])), parseDigitsGo_all_digits h2 0]
    simp only [digitsVal] at h3 ⊢
    rw [if_pos h3]

theorem optMap_map_eq {α β γ : Type} {f : β → Option γ} {g : α → β} {h' : α → γ} :
    ∀ {l : List α}, (∀ a ∈ l, f (g a) = some (h' a)) → optMap f (l.map g) = some (l.map h')
  | [], _ => rfl
  | a :: rest, h => by
    rw [List.map_cons, optMap, h a (by simp),
      optMap_map_eq (fun b hb => h b (by simp [hb])), List.map_cons]

theorem optMap_join_eq {α γ : Type} {f : α → Option (Option γ)} :
    ∀ {l : List α}, (∀ a ∈ l, f a ≠ none) → optMap f l = some (l.map fun a => (f a).join)
  | [], _ => rfl
  | a :: rest, h => by
    obtain ⟨b, hb⟩ := Option.ne_none_iff_exists'.mp (h a (by simp))
    rw [optMap, hb, optMap_join_eq (fun x hx => h x (by simp [hx])), List.map_cons, hb]
    simp [Option.join]

theorem foldl_addmod {l : List Nat} : ∀ {acc : Nat}, acc + l.sum < U64 →
    l.foldl (fun a b => (a + b) % U64) acc = acc + l.sum := by
  induction l with
  | nil => intro acc h; simp
  | cons b rest ih =>
    intro acc h
    rw [List.sum_cons] at h
    have h1 : acc + b < U64 := by omega
    have h2 : (acc + b) + rest.sum < U64 := by omega
    rw [List.foldl_cons, Nat.mod_eq_of_lt h1, ih h2, List.sum_cons]
    omega

theorem filterMap_id_map_some {α : Type} (ls : List α) : (ls.map some).filterMap id = ls := by
  induction ls with
  | nil => rfl
  | cons a rest ih => simp [List.filterMap_cons, ih]

theorem process_lines_ok {ls : List Str} (h : ∀ l ∈ ls, scanLine l ≠ none) :
    process_lines (ls.map some) = some (joinSep '\n' (headerOf ls ++ ls)) := by
  unfold process_lines
  rw [filterMap_id_map_some, optMap_join_eq h]
  simp only [headerOf, List.filterMap_map, Function.id_comp]

/-! ### Structure of joined output -/

theorem joinSep_cons (sep : Char) (x : Str) (rest : List Str) :
    ∃ t, joinSep sep (x :: rest) = x ++ t := by
  cases rest with
  | nil => exact ⟨[], (List.append_nil x).symm⟩
  | cons y r => exact ⟨sep :: joinSep sep (y :: r), rfl⟩

theorem joinSep_last (sep : Char) : ∀ {ps : List Str} {lp : Str},
    ps.getLast? = some lp → ∃ t, joinSep sep ps = t ++ lp
  | [], lp, h => by simp at h
  | [x], lp, h => by
    simp only [List.getLast?_singleton, Option.some.injEq] at h
    exact ⟨[], by rw [joinSep, h, List.nil_append]⟩
  | x :: y :: rest, lp, h => by
    have h2 : (y :: rest).getLast? = some lp := h
    obtain ⟨t, ht⟩ := joinSep_last sep h2
    exact ⟨x ++ sep :: t, by rw [joinSep, ht]; simp⟩

theorem getLast?_cons_cons {α : Type} (a b : α) (l : List α) :
    (a :: b :: l).getLast? = (b :: l).getLast? := rfl

theorem getLast?_mem {α : Type} : ∀ {l : List α} {a : α}, l.getLast? = some a → a ∈ l
  | [], a, h => by simp at h
  | [x], a, h => by
    simp only [List.getLast?_singleton, Option.some.injEq] at h
    simp [h]
  | x :: y :: rest, a, h => by
    rw [getLast?_cons_cons] at h
    exact List.mem_cons_of_mem _ (getLast?_mem h)

theorem joinSep_getLast_of_ne_nil (sep : Char) : ∀ {ps : List Str} {lp : Str} {c : Char},
    ps.getLast? = some lp → lp.getLast? = some c → (joinSep sep ps).getLast? = some c
  | [], lp, c, h, _ => by simp at h
  | [x], lp, c, h, h2 => by
    simp only [List.getLast?_singleton, Option.some.injEq] at h
    rw [joinSep, h]
    exact h2
  | x :: y :: rest, lp, c, h, h2 => by
    rw [getLast?_cons_cons] at h
    have ht := joinSep_getLast_of_ne_nil sep h h2
    have hne : joinSep sep (y :: rest) ≠ [] := by
      intro hh
      rw [hh] at ht
      simp at ht
    rw [joinSep, List.getLast?_append_of_ne_nil _ (by simp)]
    cases hj : joinSep sep (y :: rest) with
    | nil => exact absurd hj hne
    | cons z zs => rw [hj] at ht; rw [getLast?_cons_cons]; exact ht

theorem joinSep_getLast_of_last_nil (sep : Char) : ∀ {ps : List Str},
    ps.getLast? = some [] → 2 ≤ ps.length → (joinSep sep ps).getLast? = some sep
  | [], h, _ => by simp at h
  | [x], _, hlen => by simp at hlen
  | [x, y], h, _ => by
    rw [getLast?_cons_cons] at h
    simp only [List.getLast?_singleton, Option.some.injEq] at h
    rw [joinSep, joinSep, h, List.getLast?_append_of_ne_nil _ (by simp)]
    rfl
  | x :: y :: z :: rest, h, _ => by
    rw [getLast?_cons_cons] at h
    have ht := joinSep_getLast_of_last_nil sep h (by simp)
    have hne : joinSep sep (y :: z :: rest) ≠ [] := by
      intro hh
      rw [hh] at ht
      simp at ht
    rw [joinSep, List.getLast?_append_of_ne_nil _ (by simp)]
    cases hj : joinSep sep (y :: z :: rest) with
    | nil => exact absurd hj hne
    | cons w ws => rw [hj] at ht; rw [getLast?_cons_cons]; exact ht

/-! ### Byte-level slicing -/

theorem charUtf8Size_cases (c : Char) :
    charUtf8Size c = 1 ∨ charUtf8Size c = 2 ∨ charUtf8Size c = 3 ∨ charUtf8Size c = 4 := by
  unfold charUtf8Size
  split_ifs <;> simp

theorem byteDrop_two_cons (c : Char) (rest : Str) :
    byteDrop 2 (c :: rest) =
      if charUtf8Size c ≤ 2 then byteDrop (2 - charUtf8Size c) rest else none := rfl

theorem byteDrop_one_cons (c : Char) (rest : Str) :
    byteDrop 1 (c :: rest) =
      if charUtf8Size c ≤ 1 then byteDrop (1 - charUtf8Size c) rest else none := rfl

theorem byteDrop2_none_iff : ∀ {line : Str}, byteDrop 2 line = none ↔ boundary2 line = false
  | [] => by simp [byteDrop, boundary2]
  | c :: rest => by
    rcases charUtf8Size_cases c with h | h | h | h
    · cases rest with
      | nil => simp [byteDrop_two_cons, h, boundary2, byteDrop]
      | cons c2 r2 =>
        rcases charUtf8Size_cases c2 with h2 | h2 | h2 | h2 <;>
          simp [byteDrop_two_cons, byteDrop_one_cons, h, h2, boundary2, byteDrop]
    · simp [byteDrop_two_cons, h, boundary2, byteDrop]
    · simp [byteDrop_two_cons, h, boundary2]
    · simp [byteDrop_two_cons, h, boundary2]

/-! ### Duration components -/

theorem stripSuffixChar_append (c : Char) (d : Str) : stripSuffixChar c (d ++ [c]) = some d := by
  unfold stripSuffixChar
  rw [List.reverse_append]
  simp

theorem stripSuffixChar_append_ne {c u : Char} (d : Str) (h : ¬(u = c)) :
    stripSuffixChar c (d ++ [u]) = none := by
  unfold stripSuffixChar
  rw [List.reverse_append]
  simp [h]

theorem suffixWeight_pos (u : Char) : 0 < suffixWeight u := by
  unfold suffixWeight
  split <;> omega

theorem parseComp_renderComp {d : Str} {u : Char} (hd : d ≠ [])
    (hdig : ∀ c ∈ d, isDigit c = true)
    (hu : u = 'h' ∨ u = 'm' ∨ u = 's') (hlt : compVal (d, u) < U64) :
    parseComp (renderComp (d, u)) = some (compVal (d, u)) := by
  have hval : digitsVal d < U64 := by
    have h1 : digitsVal d * 1 ≤ digitsVal d * suffixWeight u :=
      Nat.mul_le_mul_left _ (suffixWeight_pos u)
    have h2 : compVal (d, u) = digitsVal d * suffixWeight u := rfl
    omega
  have hp : parseU64 d = some (digitsVal d) := parseU64_digits hd hdig hval
  simp only [renderComp, compVal] at hlt ⊢
  rcases hu with h | h | h <;> subst h
  · simp only [parseComp, stripSuffixChar_append, hp, Option.map_some']
    have hw : suffixWeight 'h' = 3600 := rfl
    rw [hw] at hlt ⊢
    have he : digitsVal d * 60 * 60 = digitsVal d * 3600 := by omega
    rw [he, Nat.mod_eq_of_lt hlt]
  · simp only [parseComp, stripSuffixChar_append_ne d (show ¬('m' = 'h') by decide),
      stripSuffixChar_append, hp, Option.map_some']
    have hw : suffixWeight 'm' = 60 := rfl
    rw [hw] at hlt ⊢
    rw [Nat.mod_eq_of_lt hlt]
  · simp only [parseComp, stripSuffixChar_append_ne d (show ¬('s' = 'h') by decide),
      stripSuffixChar_append_ne d (show ¬('s' = 'm') by decide),
      stripSuffixChar_append, hp]
    have hw : suffixWeight 's' = 1 := rfl
    rw [hw, Nat.mul_one]

/-! ### Well-formed extractor inputs -/

theorem extract_time_wellformed (ws1 ws2 : Str) (comps : List (Str × Char))
    (hws1 : ∀ c ∈ ws1, isWS c = true) (hws2 : ∀ c ∈ ws2, isWS c = true)
    (hne : comps ≠ [])
    (hdig : ∀ p ∈ comps, p.1 ≠ [] ∧ ∀ c ∈ p.1, isDigit c = true)
    (hsuf : ∀ p ∈ comps, p.2 = 'h' ∨ p.2 = 'm' ∨ p.2 = 's')
    (htot : (comps.map compVal).sum < U64) :
    extract_time_data_as_seconds (ws1 ++ '=' :: (ws2 ++ joinSep ' ' (comps.map renderComp)))
      = some (Except.ok ((comps.map compVal).sum)) := by
  have hsufOK : ∀ p ∈ comps, isWS p.2 = false := by
    intro p hp
    rcases hsuf p hp with h | h | h <;> rw [h] <;> decide
  have hbodyMem : ∀ c ∈ joinSep ' ' (comps.map renderComp),
      c = ' ' ∨ isDigit c = true ∨ ∃ p ∈ comps, c = p.2 := by
    intro c hc
    rcases joinSep_mem hc with h | ⟨piece, hpiece, hcp⟩
    · exact Or.inl h
    · obtain ⟨p, hp, hrp⟩ := List.mem_map.mp hpiece
      rw [← hrp, renderComp] at hcp
      rcases List.mem_append.mp hcp with h1 | h1
      · exact Or.inr (Or.inl ((hdig p hp).2 c h1))
      · exact Or.inr (Or.inr ⟨p, hp, by simpa using h1⟩)
  have hbodyNoEq : '=' ∉ joinSep ' ' (comps.map renderComp) := by
    intro hc
    rcases hbodyMem '=' hc with h | h | ⟨p, hp, h⟩
    · exact absurd h (by decide)
    · exact absurd h (by decide)
    · rcases hsuf p hp with hh | hh | hh <;> rw [hh] at h <;> exact absurd h (by decide)
  have hwsNoEq : '=' ∉ ws1 := fun hc => absurd (hws1 '=' hc) (by decide)
  have hw2NoEq : '=' ∉ ws2 ++ joinSep ' ' (comps.map renderComp) := by
    intro hc
    rcases List.mem_append.mp hc with h | h
    · exact absurd (hws2 '=' h) (by decide)
    · exact hbodyNoEq h
  have hsplit : splitOn '=' (ws1 ++ '=' :: (ws2 ++ joinSep ' ' (comps.map renderComp)))
      = [ws1, ws2 ++ joinSep ' ' (comps.map renderComp)] := by
    rw [splitOn_append _ hwsNoEq, splitOn_of_not_mem hw2NoEq]
  obtain ⟨p0, comps', hcomps⟩ : ∃ p0 comps', comps = p0 :: comps' := by
    cases comps with
    | nil => exact absurd rfl hne
    | cons a b => exact ⟨a, b, rfl⟩
  have hp0mem : p0 ∈ comps := by rw [hcomps]; simp
  have hhead : ∃ c t, joinSep ' ' (comps.map renderComp) = c :: t ∧ isWS c = false := by
    obtain ⟨d0h, d0t, hd0⟩ : ∃ x xs, p0.1 = x :: xs := by
      rcases hdig p0 hp0mem with ⟨hne0, _⟩
      cases hp1 : p0.1 with
      | nil => exact absurd hp1 hne0
      | cons x xs => exact ⟨x, xs, rfl⟩
    obtain ⟨t, ht⟩ := joinSep_cons ' ' (renderComp p0) (comps'.map renderComp)
    refine ⟨d0h, d0t ++ [p0.2] ++ t, ?_, ?_⟩
    · rw [hcomps, List.map_cons, ht, renderComp, hd0]
      simp
    · exact isWS_of_digit ((hdig p0 hp0mem).2 d0h (by simp [hd0]))
  have hlast : ∃ c t, (joinSep ' ' (comps.map renderComp)).reverse = c :: t ∧ isWS c = false := by
    obtain ⟨pl, hpl⟩ : ∃ pl, comps.getLast? = some pl :=
      Option.isSome_iff_exists.mp (List.getLast?_isSome.mpr hne)
    have hplmem : pl ∈ comps := getLast?_mem hpl
    have hmap : (comps.map renderComp).getLast? = some (renderComp pl) := by
      rw [List.getLast?_map, hpl]
      rfl
    obtain ⟨t, ht⟩ := joinSep_last ' ' hmap
    refine ⟨pl.2, pl.1.reverse ++ t.reverse, ?_, hsufOK pl hplmem⟩
    rw [ht, renderComp]
    simp [List.reverse_append]
  have htrim : trim (ws2 ++ joinSep ' ' (comps.map renderComp))
      = joinSep ' ' (comps.map renderComp) := trim_ws_append hws2 hhead hlast
  have hpieces : splitOn ' ' (joinSep ' ' (comps.map renderComp)) = comps.map renderComp := by
    apply splitOn_joinSep
    · simp [hcomps]
    · intro piece hpiece hsp
      obtain ⟨p, hp, hrp⟩ := List.mem_map.mp hpiece
      rw [← hrp, renderComp] at hsp
      rcases List.mem_append.mp hsp with h1 | h1
      · exact absurd ((hdig p hp).2 ' ' h1) (by decide)
      · have hpe : (' ' : Char) = p.2 := by simpa using h1
        rcases hsuf p hp with hh | hh | hh <;> rw [hh] at hpe <;> exact absurd hpe (by decide)
  have hcompOK : ∀ p ∈ comps, parseComp (renderComp p) = some (compVal p) := by
    intro p hp
    obtain ⟨h1, h2⟩ := hdig p hp
    have hplt : compVal p < U64 :=
      lt_of_le_of_lt (List.le_sum_of_mem (List.mem_map_of_mem compVal hp)) htot
    exact parseComp_renderComp h1 h2 (hsuf p hp) hplt
  have hoptmap : optMap parseComp (comps.map renderComp) = some (comps.map compVal) :=
    optMap_map_eq hcompOK
  simp only [extract_time_data_as_seconds, hsplit, htrim, hpieces, hoptmap]
  rw [foldl_addmod (by omega : 0 + (comps.map compVal).sum < U64), Nat.zero_add]

theorem extract_filament_wellformed (ws1 ws2 d1 d2 : Str)
    (hws1 : ∀ c ∈ ws1, isWS c = true) (hws2 : ∀ c ∈ ws2, isWS c = true)
    (hd1ne : d1 ≠ []) (hd1 : ∀ c ∈ d1, isDigit c = true)
    (hd2len : d2.length = 2) (hd2 : ∀ c ∈ d2, isDigit c = true)
    (hfit : digitsVal (d1 ++ d2) < U64) :
    extract_filament_used_as_um_x10 (ws1 ++ '=' :: (ws2 ++ (d1 ++ '.' :: d2)))
      = Except.ok (digitsVal (d1 ++ d2)) := by
  obtain ⟨a, b, hd2eq⟩ : ∃ a b, d2 = [a, b] := by
    cases d2 with
    | nil => simp at hd2len
    | cons x xs =>
      cases xs with
      | nil => simp at hd2len
      | cons y ys =>
        cases ys with
        | nil => exact ⟨x, y, rfl⟩
        | cons z zs => simp at hd2len
  have hbodyNoEq : '=' ∉ d1 ++ '.' :: d2 := by
    intro hc
    rcases List.mem_append.mp hc with h | h
    · exact absurd (hd1 '=' h) (by decide)
    · rcases List.mem_cons.mp h with h1 | h1
      · exact absurd h1 (by decide)
      · exact absurd (hd2 '=' h1) (by decide)
  have hwsNoEq : '=' ∉ ws1 := fun hc => absurd (hws1 '=' hc) (by decide)
  have hw2NoEq : '=' ∉ ws2 ++ (d1 ++ '.' :: d2) := by
    intro hc
    rcases List.mem_append.mp hc with h | h
    · exact absurd (hws2 '=' h) (by decide)
    · exact hbodyNoEq h
  have hsplit : splitOn '=' (ws1 ++ '=' :: (ws2 ++ (d1 ++ '.' :: d2)))
      = [ws1, ws2 ++ (d1 ++ '.' :: d2)] := by
    rw [splitOn_append _ hwsNoEq, splitOn_of_not_mem hw2NoEq]
  have hhead : ∃ c t, d1 ++ '.' :: d2 = c :: t ∧ isWS c = false := by
    cases hd1eq : d1 with
    | nil => exact absurd hd1eq hd1ne
    | cons x xs =>
      exact ⟨x, xs ++ '.' :: d2, by simp,
        isWS_of_digit (hd1 x (by simp [hd1eq]))⟩
  have hlast : ∃ c t, (d1 ++ '.' :: d2).reverse = c :: t ∧ isWS c = false := by
    refine ⟨b, [a, '.'] ++ d1.reverse, ?_, isWS_of_digit (hd2 b (by simp [hd2eq]))⟩
    rw [hd2eq]
    simp
  have htrim : trim (ws2 ++ (d1 ++ '.' :: d2)) = d1 ++ '.' :: d2 :=
    trim_ws_append hws2 hhead hlast
  have hdot1 : '.' ∉ d1 := fun hc => absurd (hd1 '.' hc) (by decide)
  have hdot2 : '.' ∉ d2 := fun hc => absurd (hd2 '.' hc) (by decide)
  have hdots : splitOn '.' (d1 ++ '.' :: d2) = [d1, d2] := by
    rw [splitOn_append _ hdot1, splitOn_of_not_mem hdot2]
  have hflat : ([d1, d2] : List Str).flatten = d1 ++ d2 := by simp
  have hdigits : ∀ c ∈ d1 ++ d2, isDigit c = true := by
    intro c hc
    rcases List.mem_append.mp hc with h | h
    · exact hd1 c h
    · exact hd2 c h
  have hparse : parseU64 (d1 ++ d2) = some (digitsVal (d1 ++ d2)) :=
    parseU64_digits (by simp [hd1ne]) hdigits hfit
  simp only [extract_filament_used_as_um_x10, hsplit, htrim, hdots, hflat, hparse]

/-! ### Per-line scanning and output shape -/

theorem flavour_render :
    InterestingFields.toString (InterestingFields.Flavour "Marlin".toList) = flavourLine := by
  decide

theorem scanLine_short {line : Str} (h : utf8Len line ≤ 3) : scanLine line = some none := by
  unfold scanLine
  rw [if_neg (by omega)]

theorem scanLine_panic {line : Str} (h3 : 3 < utf8Len line) (hb : boundary2 line = false) :
    scanLine line = none := by
  unfold scanLine
  rw [if_pos h3, byteDrop2_none_iff.mpr hb]

theorem optMap_single {α β : Type} (f : α → Option β) (a : α) {b : β} (h : f a = some b) :
    optMap f [a] = some [b] := by
  rw [optMap, h]
  rfl

theorem process_lines_single_short {line : Str} (h : utf8Len line ≤ 3) :
    process_lines [some line] = some (flavourLine ++ '\n' :: line) := by
  simp only [process_lines, List.filterMap_cons, List.filterMap_nil, id_eq,
    optMap_single scanLine line (scanLine_short h), List.map_cons, List.map_nil,
    joinSep, flavour_render]

theorem process_lines_single_panic {line : Str} (h3 : 3 < utf8Len line)
    (hb : boundary2 line = false) : process_lines [some line] = none := by
  simp only [process_lines, List.filterMap_cons, List.filterMap_nil, id_eq]
  rw [optMap, scanLine_panic h3 hb]

theorem headerOf_length_pos (ls : List Str) : 1 ≤ (headerOf ls).length := by
  simp [headerOf]

theorem process_out_last {ls : List Str} (hscan : ∀ l ∈ ls, scanLine l ≠ none)
    (hnl : ∀ l ∈ ls, '\n' ∉ l) {out : Str}
    (hout : process_lines (ls.map some) = some out) :
    (out.getLast? = some '\n' ↔ ls.getLast? = some ([] : Str)) := by
  rw [process_lines_ok hscan] at hout
  injection hout with hout
  subst hout
  cases ls with
  | nil => decide
  | cons l0 ls' =>
    have hne : (l0 :: ls' : List Str) ≠ [] := by simp
    obtain ⟨lp, hlp⟩ : ∃ lp, (l0 :: ls').getLast? = some lp :=
      Option.isSome_iff_exists.mp (List.getLast?_isSome.mpr hne)
    have happ : (headerOf (l0 :: ls') ++ (l0 :: ls')).getLast? = some lp := by
      rw [List.getLast?_append_of_ne_nil _ hne]
      exact hlp
    cases lp with
    | nil =>
      have hlen : 2 ≤ (headerOf (l0 :: ls') ++ (l0 :: ls')).length := by
        have h1 := headerOf_length_pos (l0 :: ls')
        simp only [List.length_append, List.length_cons]
        omega
      rw [joinSep_getLast_of_last_nil '\n' happ hlen, hlp]
      simp
    | cons c t =>
      obtain ⟨cE, hcE⟩ : ∃ cE, (c :: t : Str).getLast? = some cE :=
        Option.isSome_iff_exists.mp (List.getLast?_isSome.mpr (by simp))
      rw [joinSep_getLast_of_ne_nil '\n' happ hcE, hlp]
      have hmem : cE ∈ (c :: t : Str) := getLast?_mem hcE
      have hlpmem : (c :: t : Str) ∈ l0 :: ls' := getLast?_mem hlp
      have hcne : ¬(cE = '\n') := fun hh => (hnl _ hlpmem) (hh ▸ hmem)
      simp [Option.some.injEq, hcne]

theorem process_lines_flavour_first {input : List (Option Str)} {out : Str}
    (h : process_lines input = some out) : ∃ rest, out = flavourLine ++ rest := by
  unfold process_lines at h
  cases hm : optMap scanLine (input.filterMap id) with
  | none => rw [hm] at h; exact Option.noConfusion h
  | some opts =>
    rw [hm] at h
    injection h with h
    subst h
    rw [List.map_cons, List.cons_append]
    obtain ⟨t, ht⟩ := joinSep_cons '\n'
      (InterestingFields.toString (InterestingFields.Flavour "Marlin".toList))
      ((opts.filterMap id).map InterestingFields.toString ++ input.filterMap id)
    refine ⟨t, ?_⟩
    rw [ht, flavour_render]

theorem validation_true_nodup {props : List MetadataProperty}
    (h : assert_no_duplicate_metadata_properties props = true) :
    (props.map ankerKey).Nodup := by
  rw [List.nodup_iff_count_le_one]
  intro a
  rw [List.count_eq_countP, List.countP_map]
  by_cases hmem : ∃ p ∈ props, ankerKey p = a
  · obtain ⟨p, hp, hkey⟩ := hmem
    have hcount := List.all_eq_true.mp h p hp
    have h1 : props.countP (fun other => ankerKey p == ankerKey other) = 1 := by
      simpa using hcount
    have h2 : props.countP ((fun x => x == a) ∘ ankerKey)
        = props.countP (fun other => ankerKey p == ankerKey other) := by
      apply List.countP_congr
      intro x hx
      subst hkey
      simp only [Function.comp, beq_iff_eq]
      exact eq_comm
    omega
  · push_neg at hmem
    have h0 : props.countP ((fun x => x == a) ∘ ankerKey) = 0 := by
      rw [List.countP_eq_zero]
      intro x hx
      simp only [Function.comp, beq_iff_eq]
      exact hmem x hx
    omega

/-! ### The claims -/

/-- Claim C1 (corrected).  For every decodable input whose lines of byte
length above three start at a character boundary at byte two and whose
matched metadata lines extract successfully, `process_lines` returns the
header lines (the flavour constant, then one rendered line per matched field
in discovery order) joined by newlines to the full original line sequence,
unchanged, in order and with matched lines kept in the body; on the four-line
example the output is exactly the specified seven lines.  The boundary
condition is the amendment: a decodable line that begins with a multi-byte
character makes the pipeline abort instead (see the counterexample). -/
theorem C1_header_prepended :
    (∀ ls : List Str, (∀ l ∈ ls, scanLine l ≠ none) →
      process_lines (ls.map some) = some (joinSep '\n' (headerOf ls ++ ls))) ∧
    process_lines (exampleInputLines.map some) = some exampleOutput :=
  ⟨fun _ h => process_lines_ok h, by decide⟩

/-- Witness for C1: the amended theorem applied to the concrete four-line
example of the specification. -/
theorem C1_header_prepended_witness :
    process_lines (exampleInputLines.map some)
      = some (joinSep '\n' (headerOf exampleInputLines ++ exampleInputLines)) :=
  C1_header_prepended.1 exampleInputLines (by decide)

/-- Counterexample for C1 as stated: a fully decodable input line starting
with a three-byte character and containing no matched metadata line makes
`process_lines` abort (the byte slice panics), so the output is not the
header-plus-body join the claim promises for every decodable input. -/
theorem C1_cex_boundary_panic :
    process_lines [some panicLine] = none ∧
    process_lines [some panicLine] ≠ some (joinSep '\n' (headerOf [panicLine] ++ [panicLine])) :=
  ⟨by decide, by decide⟩

/-- Claim C2 (corrected).  For every well-formed duration string made of
optional whitespace, an equals sign, optional whitespace and a nonempty
subset of components (digit string plus one of the hour, minute, second
suffixes) separated by single spaces, the extractor returns the weighted sum
3600h + 60m + s, provided every component value and the total fit in u64 —
the amendment; above that bound the u64 parse aborts or the arithmetic
wraps.  The three concrete examples of the specification hold. -/
theorem C2_duration_sum :
    (∀ (ws1 ws2 : Str) (comps : List (Str × Char)),
      (∀ c ∈ ws1, isWS c = true) → (∀ c ∈ ws2, isWS c = true) →
      comps ≠ [] →
      (∀ p ∈ comps, p.1 ≠ [] ∧ ∀ c ∈ p.1, isDigit c = true) →
      (∀ p ∈ comps, p.2 = 'h' ∨ p.2 = 'm' ∨ p.2 = 's') →
      (comps.map Prod.snd).Nodup →
      (comps.map compVal).sum < U64 →
      extract_time_data_as_seconds (ws1 ++ '=' :: (ws2 ++ joinSep ' ' (comps.map renderComp)))
        = some (Except.ok ((comps.map compVal).sum))) ∧
    extract_time_data_as_seconds ("=1h 30m 0s".toList) = some (Except.ok 5400) ∧
    extract_time_data_as_seconds ("=45s".toList) = some (Except.ok 45) ∧
    extract_time_data_as_seconds ("=2h".toList) = some (Except.ok 7200) :=
  ⟨fun ws1 ws2 comps h1 h2 h3 h4 h5 _ h7 =>
    extract_time_wellformed ws1 ws2 comps h1 h2 h3 h4 h5 h7,
   by decide, by decide, by decide⟩

/-- Witness for C2: the amended theorem applied to the components of the
concrete duration 1h 30m 0s. -/
theorem C2_duration_sum_witness :
    extract_time_data_as_seconds
        ([] ++ '=' :: ([] ++ joinSep ' '
          ([("1".toList, 'h'), ("30".toList, 'm'), ("0".toList, 's')].map renderComp)))
      = some (Except.ok
          (([("1".toList, 'h'), ("30".toList, 'm'), ("0".toList, 's')].map compVal).sum)) :=
  C2_duration_sum.1 [] [] _ (by decide) (by decide) (by decide) (by decide) (by decide)
    (by decide) (by decide)

/-- Counterexample for C2 as stated: for the component value two to the
sixty-third with suffix h the claimed mathematical result 3600h is not
returned — the u64 product wraps to zero — and for a component value of two
to the sixty-fourth the u64 parse fails and the unwrap aborts. -/
theorem C2_cex_overflow :
    extract_time_data_as_seconds ("=9223372036854775808h".toList)
        ≠ some (Except.ok (3600 * 9223372036854775808)) ∧
    extract_time_data_as_seconds ("=9223372036854775808h".toList) = some (Except.ok 0) ∧
    extract_time_data_as_seconds ("=18446744073709551616s".toList) = none :=
  ⟨by decide, by decide, by decide⟩

/-- Claim C3 (code bug).  The claim and the specification require a
recoverable StringParsingError for a duration component with an unknown
suffix or a non-numeric numeric portion, but the source aborts the whole
process there (an explicit panic for the suffix, a failing unwrap for the
digits); the model returns the abort value, never a recoverable error. -/
theorem C3_component_abort :
    extract_time_data_as_seconds ("=10x".toList) = none ∧
    extract_time_data_as_seconds ("=1h 3zm".toList) = none ∧
    ∀ e : ParsingError, extract_time_data_as_seconds ("=10x".toList) ≠ some (Except.error e) := by
  refine ⟨by decide, by decide, ?_⟩
  intro e h
  rw [(by decide : extract_time_data_as_seconds ("=10x".toList)
      = (none : Option (Except ParsingError Nat)))] at h
  exact Option.noConfusion h

/-- Claim C4 (corrected).  For every well-formed length value of digits, one
full stop and two fractional digits whose concatenated digit value fits in
u64, the extractor returns those digits read as an integer; the amendment:
the source removes every full stop rather than requiring exactly one, so
value shapes with zero or several stops or other fractional widths also
succeed whenever the stop-free text parses as u64, and only a failing u64
parse yields an error. -/
theorem C4_length_digits :
    (∀ ws1 ws2 d1 d2 : Str,
      (∀ c ∈ ws1, isWS c = true) → (∀ c ∈ ws2, isWS c = true) →
      d1 ≠ [] → (∀ c ∈ d1, isDigit c = true) →
      d2.length = 2 → (∀ c ∈ d2, isDigit c = true) →
      digitsVal (d1 ++ d2) < U64 →
      extract_filament_used_as_um_x10 (ws1 ++ '=' :: (ws2 ++ (d1 ++ '.' :: d2)))
        = Except.ok (digitsVal (d1 ++ d2))) ∧
    extract_filament_used_as_um_x10 ("=2500.00".toList) = Except.ok 250000 ∧
    extract_filament_used_as_um_x10 ("=2.x5".toList)
      = Except.error (ParsingError.StringParsingError "u64" "2x5".toList) :=
  ⟨extract_filament_wellformed, by decide, by decide⟩

/-- Witness for C4: the amended theorem applied to the concrete length value
2500.00. -/
theorem C4_length_digits_witness :
    extract_filament_used_as_um_x10 ([] ++ '=' :: ([] ++ ("2500".toList ++ '.' :: "00".toList)))
      = Except.ok (digitsVal ("2500".toList ++ "00".toList)) :=
  C4_length_digits.1 [] [] "2500".toList "00".toList (by decide) (by decide) (by decide)
    (by decide) (by decide) (by decide) (by decide)

/-- Counterexample for C4 as stated: value portions that are not of the
digits-stop-two-digits shape do not fail — one fractional digit, no stop and
two stops all succeed — and a well-shaped value beyond the u64 range fails
even though the claim promises success for every digit string. -/
theorem C4_cex_dot_shapes :
    extract_filament_used_as_um_x10 ("=2.5".toList) = Except.ok 25 ∧
    extract_filament_used_as_um_x10 ("=2500".toList) = Except.ok 2500 ∧
    extract_filament_used_as_um_x10 ("=2.5.00".toList) = Except.ok 2500 ∧
    extract_filament_used_as_um_x10 ("=18446744073709551616.00".toList)
      = Except.error (ParsingError.StringParsingError "u64" "1844674407370955161600".toList) :=
  ⟨by decide, by decide, by decide, by decide⟩

/-- Claim C5 (confirmed).  On any input without an equals sign both
extractors return the recoverable MissingValue error carrying the original
text. -/
theorem C5_missing_equals (s : Str) (h : '=' ∉ s) :
    extract_time_data_as_seconds s = some (Except.error (ParsingError.MissingValue s)) ∧
    extract_filament_used_as_um_x10 s = Except.error (ParsingError.MissingValue s) := by
  have hs := splitOn_of_not_mem h
  constructor
  · simp only [extract_time_data_as_seconds, hs]
  · simp only [extract_filament_used_as_um_x10, hs]

/-- Witness for C5 at a concrete equals-free input. -/
theorem C5_missing_equals_witness :
    extract_time_data_as_seconds ("abc".toList)
        = some (Except.error (ParsingError.MissingValue "abc".toList)) ∧
    extract_filament_used_as_um_x10 ("abc".toList)
        = Except.error (ParsingError.MissingValue "abc".toList) :=
  C5_missing_equals "abc".toList (by decide)

/-- Claim C6 (confirmed).  The pipeline is not idempotent: on the end-to-end
example it produces the three header lines then the four original lines, and
running it again on that output re-extracts the duplicated metadata lines in
the body and prepends a second identical header triple, giving a different
string. -/
theorem C6_not_idempotent :
    process_lines ((readLines exampleInput).map some) = some exampleOutput ∧
    process_lines ((readLines exampleOutput).map some) = some exampleOutputTwice ∧
    exampleOutputTwice ≠ exampleOutput :=
  ⟨by decide, by decide, by decide⟩

/-- Claim C7 (corrected).  For every input the emitted output begins with the
single rendered flavour constant line; the catalog of lib.rs does define the
three constants FLAVOR, Print Mode and CompileMode in that order, but
`process_lines` materialises only the flavour constant, so the other two
rendered constant lines never appear — the amendment. -/
theorem C7_flavour_first :
    (∀ (input : List (Option Str)) (out : Str), process_lines input = some out →
      ∃ rest, out = flavourLine ++ rest) ∧
    METADATA_PROPERTIES.filterMap constantRender =
      [renderConstant "FLAVOR" "Marlin", renderConstant "Print Mode" "fast",
       renderConstant "CompileMode" "Executable File"] :=
  ⟨fun _ _ h => process_lines_flavour_first h, by decide⟩

/-- Witness for C7 at the empty input, whose output is exactly the flavour
line. -/
theorem C7_flavour_first_witness :
    ∃ rest, ";FLAVOR:Marlin".toList = flavourLine ++ rest :=
  C7_flavour_first.1 [] ";FLAVOR:Marlin".toList (by decide)

/-- Counterexample for C7 as stated: on the empty input the output is the
flavour line alone, and the rendered lines of all three catalog constants
are not a prefix of the output lines. -/
theorem C7_cex_missing_constants :
    process_lines [] = some (";FLAVOR:Marlin".toList) ∧
    linesStart (METADATA_PROPERTIES.filterMap constantRender)
      (readLines ";FLAVOR:Marlin".toList) = false :=
  ⟨by decide, by decide⟩

/-- Claim C8 (confirmed).  In the fixed catalog the emitted output keys are
pairwise distinct, so the duplicate-key validation passes, and every catalog
in which two entries share an output key fails the validation. -/
theorem C8_no_duplicate_keys :
    assert_no_duplicate_metadata_properties METADATA_PROPERTIES = true ∧
    ∀ props : List MetadataProperty, ¬ (props.map ankerKey).Nodup →
      assert_no_duplicate_metadata_properties props = false := by
  refine ⟨by decide, ?_⟩
  intro props h
  cases hcase : assert_no_duplicate_metadata_properties props with
  | false => rfl
  | true => exact absurd (validation_true_nodup hcase) h

/-- Witness for C8: a copy of the catalog with a duplicated FLAVOR key fails
the validation. -/
theorem C8_no_duplicate_keys_witness :
    assert_no_duplicate_metadata_properties
      (METADATA_PROPERTIES ++ [MetadataProperty.Constant "FLAVOR" "duplicate"]) = false :=
  C8_no_duplicate_keys.2 _ (by decide)

/-- Claim C9 (confirmed).  A line of byte length three or less is passed to
the body with no match attempted; a longer line has its first two bytes
stripped before matching, and this byte slice is abort-free exactly when
byte index two falls on a character boundary — a two-byte first character is
stripped whole, and a line starting with a three-byte character makes the
whole pipeline abort. -/
theorem C9_byte_slice :
    (∀ line : Str, utf8Len line ≤ 3 →
      process_lines [some line] = some (flavourLine ++ '\n' :: line)) ∧
    (∀ line : Str, 3 < utf8Len line → boundary2 line = false →
      process_lines [some line] = none) ∧
    byteDrop 2 ('Å' :: 'x' :: 'y' :: []) = some ['x', 'y'] ∧
    boundary2 panicLineB = false ∧ process_lines [some panicLineB] = none :=
  ⟨fun _ h => process_lines_single_short h,
   fun _ h3 hb => process_lines_single_panic h3 hb,
   by decide, by decide, by decide⟩

/-- Witness for C9: a concrete two-byte line is passed through with no match
attempted. -/
theorem C9_byte_slice_witness :
    process_lines [some ('G' :: '1' :: [])] = some (flavourLine ++ '\n' :: 'G' :: '1' :: []) :=
  C9_byte_slice.1 ('G' :: '1' :: []) (by decide)

/-- Claim C10 (corrected).  The output joins header and body lines with
single newline separators and appends no terminator of its own, so it ends
with a newline exactly when the final original line is empty — the
amendment, since an empty last line does leave a trailing newline; original
terminators are not preserved byte for byte: the line reader rewrites a
carriage-return-newline pair to a plain line and drops the trailing final
newline, so the body is unchanged only as a sequence of terminator-stripped
lines. -/
theorem C10_join_structure :
    (∀ ls : List Str, (∀ l ∈ ls, scanLine l ≠ none) →
      process_lines (ls.map some) = some (joinSep '\n' (headerOf ls ++ ls))) ∧
    readLines ("a\r\nb\n".toList) = ["a".toList, "b".toList] ∧
    (∀ (ls : List Str) (out : Str), (∀ l ∈ ls, scanLine l ≠ none) →
      (∀ l ∈ ls, '\n' ∉ l) → process_lines (ls.map some) = some out →
      (out.getLast? = some '\n' ↔ ls.getLast? = some ([] : Str))) :=
  ⟨fun _ h => process_lines_ok h, by decide,
   fun _ _ h1 h2 h3 => process_out_last h1 h2 h3⟩

/-- Witness for C10 on a concrete two-line input whose last line is empty. -/
theorem C10_join_structure_witness :
    process_lines (([['a'], []] : List Str).map some)
        = some (joinSep '\n' (headerOf ([['a'], []] : List Str) ++ ([['a'], []] : List Str))) ∧
    ((joinSep '\n' (headerOf ([['a'], []] : List Str) ++ ([['a'], []] : List Str))).getLast?
        = some '\n' ↔ (([['a'], []] : List Str).getLast? = some ([] : Str))) :=
  ⟨C10_join_structure.1 ([['a'], []] : List Str) (by decide),
   C10_join_structure.2.2 ([['a'], []] : List Str) _ (by decide) (by decide)
     (C10_join_structure.1 ([['a'], []] : List Str) (by decide))⟩

/-- Counterexample for C10 as stated: an input whose second line is empty
produces an output that does end with a trailing newline, though the claim
says this never happens. -/
theorem C10_cex_trailing_newline :
    process_lines [some ['a'], some ([] : Str)]
        = some (flavourLine ++ '\n' :: 'a' :: '\n' :: []) ∧
    (flavourLine ++ '\n' :: 'a' :: '\n' :: []).getLast? = some '\n' :=
  ⟨by decide, by decide⟩

end PrusaAnker
